import Mathlib

/-!
Verification of the ResearchWrapped backend (src/backend/main.py).

The development shallowly embeds the Python source: dictionaries become
association lists (Python 3 dicts preserve insertion order), machine strings
become Lean `String`s, the upstream OpenAlex HTTP API and the spaCy NLP
pipeline become explicit oracle parameters, and FastAPI `HTTPException`s
become an `Except` error channel carrying the status code and detail string.
-/

set_option maxRecDepth 10000

/-! ### Python primitives -/

/-- Characters matched by Python's whitespace class (the ASCII part of
the regex class backslash-s, and of str.strip / str.split). -/
def isPySpace (c : Char) : Bool :=
  c == ' ' || c == '\t' || c == '\n' || c == '\r' || c == '\x0b' || c == '\x0c'

/-- One step of Python's ASCII lowercasing. -/
def pyLowerChar (c : Char) : Char :=
  if 'A' ≤ c ∧ c ≤ 'Z' then Char.ofNat (c.toNat + 32) else c

/-- Python str.lower (ASCII fragment; non-ASCII letters are irrelevant to the
tokenizer's character class). -/
def pyLower (s : String) : String := ⟨s.data.map pyLowerChar⟩

/-- Python sep.join(l). -/
def pyJoin (sep : String) : List String → String
  | [] => ""
  | [t] => t
  | t :: u :: ts => t ++ sep ++ pyJoin sep (u :: ts)

/-- Drop leading and trailing whitespace: Python str.strip on a char list. -/
def pyStripChars (cs : List Char) : List Char :=
  ((cs.dropWhile isPySpace).reverse.dropWhile isPySpace).reverse

/-- Python str.strip. -/
def pyStripStr (s : String) : String := ⟨pyStripChars s.data⟩

/-- Replace each maximal run of whitespace by a single space: the effect of
re.sub on pattern backslash-s-plus with replacement a single space.  The
boolean records whether the previous character was part of a whitespace run. -/
def collapseAux : Bool → List Char → List Char
  | _, [] => []
  | prevWs, c :: cs =>
    if isPySpace c then
      if prevWs then collapseAux true cs else ' ' :: collapseAux true cs
    else c :: collapseAux false cs

/-- The whitespace normalization applied by the reconstructor:
re.sub(whitespace-run, single space, s).strip(). -/
def normWs (s : String) : String := ⟨pyStripChars (collapseAux false s.data)⟩

/-! ### Abstract reconstructor (main.py lines 43-58) -/

/-- Python max over a nonempty list of ints, seeded with the head. -/
def intListMax (p : Int) (ps : List Int) : Int := ps.foldl max p

/-- One loop iteration of the max-position scan: skip empty position lists,
otherwise take the max of the accumulator and the list's maximum. -/
def maxStep (m : Int) (e : String × List Int) : Int :=
  match e.2 with
  | [] => m
  | p :: ps => max m (intListMax p ps)

/-- max_pos computation of reconstruct_openalex_abstract (initial value 0). -/
def invMaxPos (inv : List (String × List Int)) : Int :=
  inv.foldl maxStep 0

/-- Write a token into each of its listed positions, guarded by
0 <= pos < len(tokens). -/
def writePositions (tok : String) (ps : List Int) (slots : List (Option String)) :
    List (Option String) :=
  ps.foldl (fun s p =>
    if 0 ≤ p ∧ p < (s.length : Int) then s.set p.toNat (some tok) else s) slots

/-- The full write loop over all (token, positions) entries. -/
def fillSlots (inv : List (String × List Int)) (slots : List (Option String)) :
    List (Option String) :=
  inv.foldl (fun s e => writePositions e.1 e.2 s) slots

/-- The generator filter of " ".join(t for t in tokens if t): keep the
truthy slots, that is the filled ones holding a nonempty token. -/
def keptTokens (slots : List (Option String)) : List String :=
  slots.filterMap fun o =>
    match o with
    | some t => if t.isEmpty then none else some t
    | none => none

/-- reconstruct_openalex_abstract: rebuild the abstract text from the
token-to-positions inverted index. -/
def reconstruct_openalex_abstract (inv : List (String × List Int)) : String :=
  if inv.isEmpty then ""
  else
    normWs (pyJoin " "
      (keptTokens (fillSlots inv (List.replicate ((invMaxPos inv).toNat + 1) none))))

example : reconstruct_openalex_abstract [("a", [0]), ("b", [2])] = "a b" := by decide
example : reconstruct_openalex_abstract [] = "" := by decide
example : reconstruct_openalex_abstract [("a", [0]), ("b\nc", [1])] = "a b c" := by decide
example : reconstruct_openalex_abstract [("x", [-3]), ("y", [0])] = "y" := by decide

/-! ### Tokenizer (main.py lines 61-63)

simple_tokenize is re.findall of the pattern "letter followed by one or more
of letter/hyphen/apostrophe" over the lowercased text: the scanner tries each
start position left to right and, on a match, greedily consumes the maximal
run and resumes after it.  The fuel argument (the remaining input length
bounds the recursion) keeps the function structurally recursive so that it
evaluates by kernel reduction. -/

/-- Characters matched by the tail class of the tokenizer pattern:
ASCII letters, hyphen, apostrophe. -/
def isWordTail (c : Char) : Bool := c.isAlpha || c == '-' || c == Char.ofNat 39

/-- Regex scan of re.findall for the tokenizer pattern, fueled. -/
def findTokensAux : Nat → List Char → List String
  | 0, _ => []
  | _ + 1, [] => []
  | n + 1, c :: rest =>
    if c.isAlpha then
      let run := rest.takeWhile isWordTail
      if run.isEmpty then findTokensAux n rest
      else ⟨c :: run⟩ :: findTokensAux n (rest.drop run.length)
    else findTokensAux n rest

/-- simple_tokenize: lowercase, then scan for tokens. -/
def simple_tokenize (text : String) : List String :=
  findTokensAux (pyLower text).data.length (pyLower text).data

example : simple_tokenize "The cat-like API, a 3-way test!" =
    ["the", "cat-like", "api", "way", "test"] := by decide

/-! ### Counter and most_common (collections.Counter)

A Counter built from a list of strings is an association list in first
occurrence order; most_common(n) sorts by count descending (stable, ties in
insertion order) and takes the first n. -/

/-- Add one occurrence to a Counter association list. -/
def counterAdd (acc : List (String × Nat)) (t : String) : List (String × Nat) :=
  if acc.any (fun p => p.1 == t) then
    acc.map (fun p => if p.1 == t then (p.1, p.2 + 1) else p)
  else acc ++ [(t, 1)]

/-- Build a Counter from a token list. -/
def counter (ts : List String) : List (String × Nat) := ts.foldl counterAdd []

/-- Stable descending insertion by count: the new element goes after every
element whose count is at least as large. -/
def insertDesc (x : String × Nat) : List (String × Nat) → List (String × Nat)
  | [] => [x]
  | y :: ys => if x.2 ≤ y.2 then y :: insertDesc x ys else x :: y :: ys

/-- Stable sort by count descending. -/
def sortDesc (l : List (String × Nat)) : List (String × Nat) :=
  l.foldl (fun acc x => insertDesc x acc) []

/-- Counter.most_common(n). -/
def mostCommon (n : Nat) (l : List (String × Nat)) : List (String × Nat) :=
  (sortDesc l).take n

example : mostCommon 2 (counter ["b", "a", "b", "c", "a", "b"]) =
    [("b", 3), ("a", 2)] := by decide

/-! ### Lexical analyzer (main.py lines 66-116)

The spaCy pipeline is an opaque external collaborator: it is modelled as an
oracle producing, for the corpus, a document of annotated tokens, noun
chunks, and availability flags, together with the spaCy stopword set.
extract_stats takes the (possibly absent) pipeline as an explicit parameter,
the shallow embedding of the lazily initialized module global. -/

/-- Python str.split() with no separator: split on whitespace runs and drop
empty pieces.  The accumulator holds the current word reversed. -/
def pySplitAux : List Char → List Char → List String
  | [], acc => if acc.isEmpty then [] else [⟨acc.reverse⟩]
  | c :: cs, acc =>
    if isPySpace c then
      if acc.isEmpty then pySplitAux cs [] else ⟨acc.reverse⟩ :: pySplitAux cs []
    else pySplitAux cs (c :: acc)

/-- Python str.split(). -/
def pySplitWs (s : String) : List String := pySplitAux s.data []

structure SpacyToken where
  lemma_ : String
  is_alpha : Bool
  is_stop : Bool
  pos_ : String
deriving DecidableEq

structure SpacyDoc where
  tokens : List SpacyToken
  noun_chunks : List String
  has_pos : Bool
  has_sent_start : Bool
deriving DecidableEq

structure SpacyNlp where
  pipe_names : List String
  run : String → SpacyDoc
  stopwords : String → Bool

structure StatsOut where
  top_words : List (String × Nat)
  top_verbs : List (String × Nat)
  topics : List (String × Nat)
deriving DecidableEq

/-- Python str.isalpha for ASCII strings: nonempty and all alphabetic. -/
def pyIsAlphaStr (s : String) : Bool := !s.data.isEmpty && s.data.all Char.isAlpha

/-- The fixed fallback stopword list of extract_stats. -/
def basic_stop : List String :=
  ["the", "a", "an", "and", "or", "but", "if", "then", "else", "for", "to",
   "of", "in", "on", "with", "as", "by", "is", "are", "was", "were", "be",
   "been", "it", "its", "that", "this", "these", "those", "from", "at", "we",
   "our", "you", "your", "they", "their", "i", "me", "my", "he", "she", "his",
   "her", "them", "there", "here", "over", "under", "than", "such", "can",
   "may", "might", "should", "would", "could", "not", "no", "yes", "do",
   "does", "did", "have", "has", "had"]

/-- The word filter of the fallback branch: not a stopword and longer than
two characters. -/
def fallbackKeep (t : String) : Bool := !(basic_stop.contains t) && decide (2 < t.length)

/-- The token list counted by the fallback branch. -/
def fallbackWords (corpus : String) : List String :=
  (simple_tokenize corpus).filter fallbackKeep

/-- The fallback branch of extract_stats (no usable spaCy pipeline). -/
def extractFallback (corpus : String) : StatsOut :=
  ⟨mostCommon 15 (counter (fallbackWords corpus)), [], []⟩

/-- The lemma list counted for the word ranking of the annotated branch:
lowercase lemmas of alphabetic non-stopword tokens with lemma longer than
one character. -/
def word_lemmas (doc : SpacyDoc) : List String :=
  doc.tokens.filterMap fun t =>
    if t.is_alpha && !t.is_stop && decide (1 < t.lemma_.length)
    then some (pyLower t.lemma_) else none

/-- The lemma list counted for the verb ranking: verbs with purely
alphabetic lemma, only when the pipeline produced POS tags. -/
def verb_lemmas (doc : SpacyDoc) : List String :=
  if doc.has_pos then
    doc.tokens.filterMap fun t =>
      if t.pos_ == "VERB" && pyIsAlphaStr t.lemma_
      then some (pyLower t.lemma_) else none
  else []

/-- The normalized noun chunks counted for the topic ranking: trimmed,
lowercased, longer than three characters, not all stopwords; only when the
pipeline supports sentence segmentation. -/
def topic_chunks (stop : String → Bool) (doc : SpacyDoc) : List String :=
  if doc.has_sent_start then
    doc.noun_chunks.filterMap fun ch =>
      if decide (3 < (pyLower (pyStripStr ch)).length) &&
         !((pySplitWs (pyLower (pyStripStr ch))).all stop)
      then some (pyLower (pyStripStr ch)) else none
  else []

/-- The annotated branch of extract_stats (spaCy pipeline with at least one
pipe). -/
def extractAnnotated (nlp : SpacyNlp) (corpus : String) : StatsOut :=
  ⟨mostCommon 15 (counter (word_lemmas (nlp.run corpus))),
   mostCommon 10 (counter (verb_lemmas (nlp.run corpus))),
   mostCommon 10 (counter (topic_chunks nlp.stopwords (nlp.run corpus)))⟩

/-- extract_stats: join the abstracts into one corpus and branch on
availability of a usable spaCy pipeline (pipeline object present with a
nonempty pipe list). -/
def extract_stats (nlpo : Option SpacyNlp) (abstracts : List String) : StatsOut :=
  match nlpo with
  | some nlp => if nlp.pipe_names.isEmpty then extractFallback (pyJoin "\n" abstracts)
                else extractAnnotated nlp (pyJoin "\n" abstracts)
  | none => extractFallback (pyJoin "\n" abstracts)

/-! ### Upstream API model and the /analyze handler (main.py lines 119-216)

The OpenAlex REST API is an external collaborator, modelled as an oracle
giving, for each of the three request shapes the service issues, a status
code and an already-deserialized JSON body of the relevant shape.  FastAPI
HTTPExceptions become the error channel of an Except value; the handler also
returns the list of upstream calls it made, in order, so that properties
about which network requests happen are statable. -/

structure AuthorObj where
  id : Option String
  display_name : Option String
deriving DecidableEq

structure WorkObj where
  abstract_inverted_index : Option (List (String × List Int))
  title : Option String
  publication_year : Option Int
deriving DecidableEq

structure HttpResp (β : Type) where
  status : Nat
  body : β

/-- The three upstream request shapes of the backend. -/
structure Upstream where
  authorsByOrcid : String → HttpResp (List AuthorObj)
  authorById : String → HttpResp AuthorObj
  works : Option String → HttpResp (List WorkObj)

/-- Trace entries recording outbound calls to the upstream API. -/
inductive UpCall where
  | authorsQuery (orcid : String)
  | authorGet (idPart : String)
  | worksQuery (authorId : Option String)
deriving DecidableEq

/-- An HTTPException: status code plus detail string. -/
structure ErrResp where
  status : Nat
  detail : String
deriving DecidableEq

/-- The JSON object returned by a successful /analyze call. -/
structure OkResp where
  author_name : Option String
  orcid : Option String
  works_used : Nat
  titles : List String
  years : List (Option Int)
  top_words : List (String × Nat)
  top_verbs : List (String × Nat)
  topics : List (String × Nat)
deriving DecidableEq

/-- Python truthiness of an optional string parameter: None and the empty
string are falsy. -/
def isFalsyOpt : Option String → Bool
  | none => true
  | some s => s.isEmpty

/-- Python truthiness of the abstract_inverted_index field: absent values and
empty dicts are falsy. -/
def truthyInv : Option (List (String × List Int)) → Bool
  | none => false
  | some d => !d.isEmpty

/-- fetch_author_by_orcid: query the authors endpoint filtered by ORCID;
non-200 gives 502, an empty result list gives 404, otherwise the first
author record is returned. -/
def fetch_author_by_orcid (up : Upstream) (orcid : String) : Except ErrResp AuthorObj :=
  if (up.authorsByOrcid orcid).status ≠ 200 then
    .error ⟨502, "Failed to query OpenAlex authors"⟩
  else
    match (up.authorsByOrcid orcid).body with
    | [] => .error ⟨404, "Author not found for given ORCID"⟩
    | a :: _ => .ok a

/-- The selection loop of fetch_recent_works: keep works whose inverted
index is truthy and stop as soon as max_items are collected.  The
accumulator is kept reversed. -/
def selectWorks (maxItems : Nat) : List WorkObj → List WorkObj → List WorkObj
  | acc, [] => acc.reverse
  | acc, w :: ws =>
    let acc' := if truthyInv w.abstract_inverted_index then w :: acc else acc
    if maxItems ≤ acc'.length then acc'.reverse else selectWorks maxItems acc' ws

/-- fetch_recent_works: query the works endpoint for the author; non-200
gives 502, otherwise filter to works carrying an abstract index, capped. -/
def fetch_recent_works (up : Upstream) (author_openalex_id : Option String)
    (max_items : Nat) : Except ErrResp (List WorkObj) :=
  if (up.works author_openalex_id).status ≠ 200 then
    .error ⟨502, "Failed to query OpenAlex works"⟩
  else .ok (selectWorks max_items [] (up.works author_openalex_id).body)

/-- Does one character list occur inside another (Python substring test)? -/
def containsSubChars (sub : List Char) : List Char → Bool
  | [] => sub.isEmpty
  | c :: rest => sub.isPrefixOf (c :: rest) || containsSubChars sub rest

/-- Python sub in s. -/
def strContains (s sub : String) : Bool := containsSubChars sub.data s.data

/-- Python s.startswith(p). -/
def pyStartsWith (s p : String) : Bool := p.data.isPrefixOf s.data

/-- The author-URL normalization of the author path: URLs must contain "/A",
bare identifiers must start with "A"; anything else is a 400. -/
def authorUrlOf (author_norm : String) : Except ErrResp String :=
  if pyStartsWith author_norm "http" then
    if strContains author_norm "/A" then .ok author_norm
    else .error ⟨400, "Unsupported author URL format"⟩
  else if pyStartsWith author_norm "A" then
    .ok ("https://openalex.org/" ++ author_norm)
  else .error ⟨400, "Author must be an OpenAlex author ID (e.g., Axxxx) or URL"⟩

/-- Python s.split(sep) for a one-character separator. -/
def splitOnChar (sep : Char) : List Char → List (List Char)
  | [] => [[]]
  | c :: cs =>
    let r := splitOnChar sep cs
    if c == sep then [] :: r
    else
      match r with
      | [] => [[c]]
      | h :: t => (c :: h) :: t

/-- Python url.split('/')[-1]: the last path component. -/
def lastPathPart (url : String) : String := ⟨(splitOnChar '/' url.data).getLastD []⟩

/-- The identifier-validation and author-resolution stage of the /analyze
handler: the missing-parameter check, then either the ORCID path or the
author-ID path, each recording its upstream call.  The two branches
returning status 500 are unreachable (they are guarded by the falsy check);
they stand for the framework's generic internal-error response. -/
def resolve_author (up : Upstream) (orcid author : Option String) :
    Except ErrResp AuthorObj × List UpCall :=
  if isFalsyOpt orcid && isFalsyOpt author then
    (.error ⟨400, "Provide either 'orcid' or 'author' parameter"⟩, [])
  else if !isFalsyOpt orcid then
    match orcid with
    | some o => (fetch_author_by_orcid up o, [.authorsQuery o])
    | none => (.error ⟨500, "Internal Server Error"⟩, [])
  else
    match author with
    | some a =>
      match authorUrlOf (pyStripStr a) with
      | .error e => (.error e, [])
      | .ok url =>
        if (up.authorById (lastPathPart url)).status ≠ 200 then
          (.error ⟨404, "Author not found for given ID"⟩, [.authorGet (lastPathPart url)])
        else (.ok (up.authorById (lastPathPart url)).body, [.authorGet (lastPathPart url)])
    | none => (.error ⟨500, "Internal Server Error"⟩, [])

/-- The per-work loop of the handler: reconstruct each abstract and keep the
abstract, title (default empty) and year of works whose reconstruction is
nonempty, in order. -/
def collectAbstracts : List WorkObj → List String × List String × List (Option Int)
  | [] => ([], [], [])
  | w :: ws =>
    let rest := collectAbstracts ws
    let txt := reconstruct_openalex_abstract (w.abstract_inverted_index.getD [])
    if txt.isEmpty then rest
    else (txt :: rest.1, (w.title.getD "") :: rest.2.1, w.publication_year :: rest.2.2)

/-- The tail of the /analyze handler after author resolution: fetch up to
ten recent works with abstracts, reconstruct the abstracts, 404 when none is
nonempty, otherwise run the analyzer and assemble the response. -/
def analyzeWorks (nlpo : Option SpacyNlp) (up : Upstream) (orcidParam : Option String)
    (author_obj : AuthorObj) : Except ErrResp OkResp :=
  match fetch_recent_works up author_obj.id 10 with
  | .error e => .error e
  | .ok works =>
    if (collectAbstracts works).1.isEmpty then
      .error ⟨404, "No abstracts found for the last works"⟩
    else
      .ok ⟨author_obj.display_name, orcidParam, (collectAbstracts works).1.length,
           (collectAbstracts works).2.1, (collectAbstracts works).2.2,
           (extract_stats nlpo (collectAbstracts works).1).top_words,
           (extract_stats nlpo (collectAbstracts works).1).top_verbs,
           (extract_stats nlpo (collectAbstracts works).1).topics⟩

/-- The GET /analyze handler: resolve the author, then run the works stage;
the works endpoint is called exactly when resolution succeeds. -/
def analyze (nlpo : Option SpacyNlp) (up : Upstream) (orcid author : Option String) :
    Except ErrResp OkResp × List UpCall :=
  match resolve_author up orcid author with
  | (.error e, tr) => (.error e, tr)
  | (.ok author_obj, tr) =>
    (analyzeWorks nlpo up orcid author_obj, tr ++ [.worksQuery author_obj.id])

/-! ### Handler lemmas -/

theorem isFalsyOpt_some_of_ne {o : String} (ho : o ≠ "") :
    isFalsyOpt (some o) = false := by
  simp only [isFalsyOpt, ← Bool.not_eq_true]
  exact fun hh => ho ((String.isEmpty_iff o).mp hh)

/-- With a truthy orcid parameter the handler takes the ORCID path,
regardless of the author parameter. -/
theorem resolve_author_orcid (up : Upstream) (o : String) (a : Option String)
    (ho : o ≠ "") :
    resolve_author up (some o) a =
      (fetch_author_by_orcid up o, [.authorsQuery o]) := by
  simp [resolve_author, isFalsyOpt_some_of_ne ho]

/-- Every error of fetch_author_by_orcid has status 502 or 404. -/
theorem fetch_author_by_orcid_error (up : Upstream) (o : String) (e : ErrResp)
    (h : fetch_author_by_orcid up o = .error e) :
    e.status = 502 ∨ e.status = 404 := by
  unfold fetch_author_by_orcid at h
  split at h
  · cases h; exact Or.inl rfl
  · split at h
    · cases h; exact Or.inr rfl
    · cases h

/-- The only error of fetch_recent_works is the upstream 502. -/
theorem fetch_recent_works_error (up : Upstream) (aid : Option String) (m : Nat)
    (e : ErrResp) (h : fetch_recent_works up aid m = .error e) :
    e = ⟨502, "Failed to query OpenAlex works"⟩ := by
  unfold fetch_recent_works at h
  split at h
  · cases h; rfl
  · cases h

@[simp] theorem isFalsyOpt_none : isFalsyOpt none = true := rfl

/-- The works stage can only fail with 502 (upstream works query) or 404
(no nonempty abstract). -/
theorem analyzeWorks_error_status (nlpo : Option SpacyNlp) (up : Upstream)
    (op : Option String) (obj : AuthorObj) (e : ErrResp)
    (h : analyzeWorks nlpo up op obj = .error e) :
    e.status = 502 ∨ e.status = 404 := by
  unfold analyzeWorks at h
  split at h
  next e' heq =>
    have h2 := fetch_recent_works_error up obj.id 10 e' heq
    have h3 : e' = e := by injection h
    rw [h3] at h2
    rw [h2]
    exact Or.inl rfl
  next works heq =>
    split at h
    · cases h; exact Or.inr rfl
    · cases h

/-- The lengths of the three parallel lists produced by the per-work loop
agree. -/
theorem collectAbstracts_lengths (ws : List WorkObj) :
    (collectAbstracts ws).2.1.length = (collectAbstracts ws).1.length ∧
    (collectAbstracts ws).2.2.length = (collectAbstracts ws).1.length := by
  induction ws with
  | nil => simp [collectAbstracts]
  | cons w ws ih =>
    simp only [collectAbstracts]
    split
    · exact ih
    · simp [ih.1, ih.2]

/-- The per-work loop keeps at most one abstract per work. -/
theorem collectAbstracts_length_le (ws : List WorkObj) :
    (collectAbstracts ws).1.length ≤ ws.length := by
  induction ws with
  | nil => simp [collectAbstracts]
  | cons w ws ih =>
    simp only [collectAbstracts]
    split
    · exact Nat.le_succ_of_le ih
    · simpa using ih

/-- The selection loop never returns more than max_items works when the
accumulator is below the cap. -/
theorem selectWorks_length_le (m : Nat) (l : List WorkObj) :
    ∀ acc : List WorkObj, acc.length < m → (selectWorks m acc l).length ≤ m := by
  induction l with
  | nil =>
    intro acc h
    simpa [selectWorks] using Nat.le_of_lt h
  | cons w ws ih =>
    intro acc h
    simp only [selectWorks]
    cases ht : truthyInv w.abstract_inverted_index
    · simp only [ht, Bool.false_eq_true, if_false]
      by_cases hm : m ≤ acc.length
      · omega
      · rw [if_neg hm]
        exact ih _ h
    · simp only [ht, if_true]
      by_cases hm : m ≤ (w :: acc).length
      · rw [if_pos hm]
        simp only [List.length_reverse, List.length_cons]
        simp only [List.length_cons] at hm
        omega
      · rw [if_neg hm]
        exact ih _ (by simp only [List.length_cons] at hm ⊢; omega)

/-- On success, the works stage echoes the orcid parameter, keeps the three
arrays parallel, and uses between 1 and 10 works. -/
theorem analyzeWorks_ok (nlpo : Option SpacyNlp) (up : Upstream) (op : Option String)
    (obj : AuthorObj) (r : OkResp) (h : analyzeWorks nlpo up op obj = .ok r) :
    r.orcid = op ∧ r.titles.length = r.works_used ∧ r.years.length = r.works_used ∧
    1 ≤ r.works_used ∧ r.works_used ≤ 10 := by
  unfold analyzeWorks at h
  split at h
  · cases h
  next works heq =>
    split at h
    · cases h
    next hne =>
      cases h
      refine ⟨rfl, (collectAbstracts_lengths works).1, (collectAbstracts_lengths works).2,
        ?_, ?_⟩
      · have : ¬ (collectAbstracts works).1 = [] := by
          intro hnil
          exact hne (by simp [hnil])
        have hlen : 0 < (collectAbstracts works).1.length :=
          List.length_pos.mpr this
        exact hlen
      · have hsel : works = selectWorks 10 [] (up.works obj.id).body := by
          unfold fetch_recent_works at heq
          split at heq
          · cases heq
          · cases heq; rfl
        show (collectAbstracts works).1.length ≤ 10
        calc (collectAbstracts works).1.length ≤ works.length :=
              collectAbstracts_length_le works
          _ ≤ 10 := by
              rw [hsel]
              exact selectWorks_length_le 10 _ [] (by simp)

/-! ### Counter and most_common lemmas -/

theorem mem_insertDesc {x a : String × Nat} :
    ∀ {l : List (String × Nat)}, a ∈ insertDesc x l ↔ a = x ∨ a ∈ l := by
  intro l
  induction l with
  | nil => simp [insertDesc]
  | cons y ys ih =>
    simp only [insertDesc]
    split
    · simp only [List.mem_cons, ih]
      tauto
    · simp [List.mem_cons]

theorem pairwise_insertDesc {x : String × Nat} :
    ∀ {l : List (String × Nat)}, l.Pairwise (fun a b => b.2 ≤ a.2) →
      (insertDesc x l).Pairwise (fun a b => b.2 ≤ a.2) := by
  intro l
  induction l with
  | nil => intro _; simp [insertDesc]
  | cons y ys ih =>
    intro hp
    rw [List.pairwise_cons] at hp
    simp only [insertDesc]
    split
    next hle =>
      rw [List.pairwise_cons]
      refine ⟨fun b hb => ?_, ih hp.2⟩
      rcases mem_insertDesc.mp hb with rfl | hb'
      · exact hle
      · exact hp.1 b hb'
    next hgt =>
      rw [List.pairwise_cons]
      refine ⟨fun b hb => ?_, List.pairwise_cons.mpr hp⟩
      rcases List.mem_cons.mp hb with rfl | hb'
      · omega
      · have := hp.1 b hb'
        omega

theorem sortDesc_pairwise (l : List (String × Nat)) :
    (sortDesc l).Pairwise (fun a b => b.2 ≤ a.2) := by
  suffices h : ∀ (l acc : List (String × Nat)),
      acc.Pairwise (fun a b => b.2 ≤ a.2) →
      (l.foldl (fun acc x => insertDesc x acc) acc).Pairwise (fun a b => b.2 ≤ a.2) by
    exact h l [] (by simp)
  intro l
  induction l with
  | nil => intro acc h; exact h
  | cons x xs ih => intro acc h; exact ih _ (pairwise_insertDesc h)

theorem mem_sortDesc {a : String × Nat} (l : List (String × Nat)) :
    a ∈ sortDesc l ↔ a ∈ l := by
  suffices h : ∀ (l acc : List (String × Nat)),
      a ∈ l.foldl (fun acc x => insertDesc x acc) acc ↔ a ∈ acc ∨ a ∈ l by
    rw [sortDesc, h l []]
    simp
  intro l
  induction l with
  | nil => intro acc; simp
  | cons x xs ih =>
    intro acc
    rw [List.foldl_cons, ih, mem_insertDesc]
    simp only [List.mem_cons]
    tauto

theorem length_insertDesc (x : String × Nat) :
    ∀ l : List (String × Nat), (insertDesc x l).length = l.length + 1 := by
  intro l
  induction l with
  | nil => rfl
  | cons y ys ih =>
    simp only [insertDesc]
    split
    · simp [ih]
    · simp

theorem length_sortDesc (l : List (String × Nat)) :
    (sortDesc l).length = l.length := by
  suffices h : ∀ (l acc : List (String × Nat)),
      (l.foldl (fun acc x => insertDesc x acc) acc).length = acc.length + l.length by
    simpa using h l []
  intro l
  induction l with
  | nil => intro acc; simp
  | cons x xs ih =>
    intro acc
    rw [List.foldl_cons, ih, length_insertDesc]
    simp only [List.length_cons]
    omega

theorem length_mostCommon (n : Nat) (l : List (String × Nat)) :
    (mostCommon n l).length = min n l.length := by
  rw [mostCommon, List.length_take, length_sortDesc]

theorem mostCommon_length_le (n : Nat) (l : List (String × Nat)) :
    (mostCommon n l).length ≤ n := by
  rw [length_mostCommon]
  omega

theorem mostCommon_pairwise (n : Nat) (l : List (String × Nat)) :
    (mostCommon n l).Pairwise (fun a b => b.2 ≤ a.2) :=
  List.Pairwise.sublist (List.take_sublist n _) (sortDesc_pairwise l)

theorem mem_mostCommon {p : String × Nat} (n : Nat) (l : List (String × Nat))
    (h : p ∈ mostCommon n l) : p ∈ l :=
  (mem_sortDesc l).mp ((List.take_sublist n _).subset h)

/-- Members of a Counter built by the fold: either the key was already in
the accumulator (its count grew by the occurrences in the suffix), or the
key is fresh and its count is exactly its number of occurrences. -/
theorem foldl_counterAdd_mem :
    ∀ (ts : List String) (acc : List (String × Nat)) (p : String × Nat),
      p ∈ ts.foldl counterAdd acc →
      (∃ q ∈ acc, q.1 = p.1 ∧ p.2 = q.2 + ts.count p.1) ∨
      (¬ p.1 ∈ acc.map Prod.fst ∧ p.1 ∈ ts ∧ p.2 = ts.count p.1) := by
  intro ts
  induction ts with
  | nil =>
    intro acc p hp
    exact Or.inl ⟨p, hp, rfl, by simp⟩
  | cons t ts ih =>
    intro acc p hp
    rw [List.foldl_cons] at hp
    rcases ih (counterAdd acc t) p hp with ⟨q, hq, hqk, hqc⟩ | ⟨hnk, hmem, hc⟩
    · -- the key was present after processing t
      by_cases hany : acc.any (fun r => r.1 == t) = true
      · -- t was already a key: counterAdd bumped matching entries
        rw [counterAdd, if_pos hany] at hq
        rcases List.mem_map.mp hq with ⟨q₀, hq₀, hbump⟩
        by_cases hk : q₀.1 = t
        · left
          have hqq : q = (q₀.1, q₀.2 + 1) := by
            rw [← hbump]
            simp [hk]
          have hqk' : q₀.1 = p.1 := by
            rw [hqq] at hqk
            exact hqk
          refine ⟨q₀, hq₀, hqk', ?_⟩
          have hpt : p.1 = t := by rw [← hqk', hk]
          rw [hqc, hqq, hpt, List.count_cons_self]
          omega
        · left
          have hbump' : q = q₀ := by
            rw [← hbump]
            simp [hk]
          refine ⟨q₀, hq₀, hbump' ▸ hqk, ?_⟩
          have hpt : p.1 ≠ t := by
            rw [← hqk, hbump']
            exact hk
          rw [hqc, List.count_cons_of_ne hpt, hbump']
      · -- t was fresh: counterAdd appended (t, 1)
        rw [counterAdd, if_neg hany] at hq
        rcases List.mem_append.mp hq with hq' | hq'
        · left
          have hk : q.1 ≠ t := by
            intro hk
            apply hany
            rw [List.any_eq_true]
            exact ⟨q, hq', by simpa using hk⟩
          refine ⟨q, hq', hqk, ?_⟩
          rw [hqc, List.count_cons_of_ne (by rw [← hqk]; exact hk)]
        · right
          have hqt : q = (t, 1) := by simpa using hq'
          have hpt : p.1 = t := by rw [← hqk, hqt]
          have hnacc : ¬ t ∈ acc.map Prod.fst := by
            intro hmem'
            apply hany
            rw [List.any_eq_true]
            rcases List.mem_map.mp hmem' with ⟨r, hr, hrk⟩
            exact ⟨r, hr, by simpa using hrk⟩
          refine ⟨hpt ▸ hnacc, by simp [hpt], ?_⟩
          rw [hqc, hqt, hpt, List.count_cons_self]
          omega
    · -- the key is fresh even after processing t, so it differs from t
      right
      have hkeys : ∀ s, s ∈ acc.map Prod.fst → s ∈ (counterAdd acc t).map Prod.fst := by
        intro s hs
        rw [counterAdd]
        split
        · rcases List.mem_map.mp hs with ⟨r, hr, hrk⟩
          rw [List.mem_map]
          refine ⟨if r.1 == t then (r.1, r.2 + 1) else r, List.mem_map_of_mem _ hr, ?_⟩
          split <;> simpa using hrk
        · rw [List.map_append, List.mem_append]
          exact Or.inl hs
      have htk : t ∈ (counterAdd acc t).map Prod.fst := by
        rw [counterAdd]
        split
        next hany =>
          rw [List.any_eq_true] at hany
          rcases hany with ⟨r, hr, hrk⟩
          rw [List.mem_map]
          refine ⟨(r.1, r.2 + 1), ?_, by simpa using hrk⟩
          rw [List.mem_map]
          exact ⟨r, hr, by simp [show r.1 == t from hrk]⟩
        · rw [List.map_append, List.mem_append]
          exact Or.inr (by simp)
      have hpt : p.1 ≠ t := fun hpt => hnk (hpt ▸ htk)
      refine ⟨fun hmem' => hnk (hkeys _ hmem'), List.mem_cons_of_mem _ hmem, ?_⟩
      rw [hc, List.count_cons_of_ne hpt]

/-- Every entry of a Counter is a token of the input, counted exactly. -/
theorem counter_spec (ts : List String) (p : String × Nat) (h : p ∈ counter ts) :
    p.1 ∈ ts ∧ p.2 = ts.count p.1 := by
  rcases foldl_counterAdd_mem ts [] p h with ⟨q, hq, _⟩ | ⟨_, hmem, hc⟩
  · exact absurd hq (List.not_mem_nil q)
  · exact ⟨hmem, hc⟩

/-- Every token of the input appears among the Counter's keys. -/
theorem mem_keys_counter :
    ∀ (ts : List String) (acc : List (String × Nat)) (t : String),
      t ∈ acc.map Prod.fst ∨ t ∈ ts →
      t ∈ (ts.foldl counterAdd acc).map Prod.fst := by
  intro ts
  induction ts with
  | nil =>
    intro acc t h
    rcases h with h | h
    · exact h
    · exact absurd h (List.not_mem_nil t)
  | cons u ts ih =>
    intro acc t h
    rw [List.foldl_cons]
    have hkeys : ∀ s, s ∈ acc.map Prod.fst → s ∈ (counterAdd acc u).map Prod.fst := by
      intro s hs
      rw [counterAdd]
      split
      · rcases List.mem_map.mp hs with ⟨r, hr, hrk⟩
        rw [List.mem_map]
        refine ⟨if r.1 == u then (r.1, r.2 + 1) else r, List.mem_map_of_mem _ hr, ?_⟩
        split <;> simpa using hrk
      · rw [List.map_append, List.mem_append]
        exact Or.inl hs
    have huk : u ∈ (counterAdd acc u).map Prod.fst := by
      rw [counterAdd]
      split
      next hany =>
        rw [List.any_eq_true] at hany
        rcases hany with ⟨r, hr, hrk⟩
        rw [List.mem_map]
        refine ⟨(r.1, r.2 + 1), ?_, by simpa using hrk⟩
        rw [List.mem_map]
        exact ⟨r, hr, by simp [show r.1 == u from hrk]⟩
      · rw [List.map_append, List.mem_append]
        exact Or.inr (by simp)
    rcases h with h | h
    · exact ih _ t (Or.inl (hkeys t h))
    · rcases List.mem_cons.mp h with rfl | h'
      · exact ih _ t (Or.inl huk)
      · exact ih _ t (Or.inr h')

/-! ### Tokenizer composition lemmas

The regex scanner is local: a match never crosses a character outside the
word classes, so tokenizing a corpus joined with newlines is tokenizing the
pieces. -/

theorem takeWhile_append_cons_of_neg (p : Char → Bool) (xs : List Char) (y : Char)
    (ys : List Char) (hy : p y = false) :
    (xs ++ y :: ys).takeWhile p = xs.takeWhile p := by
  induction xs with
  | nil => simp [List.takeWhile_cons, hy]
  | cons x xs ih =>
    rw [List.cons_append, List.takeWhile_cons, List.takeWhile_cons]
    cases hx : p x <;> simp [hx, ih]

theorem findTokensAux_fuel :
    ∀ (f₁ f₂ : Nat) (cs : List Char), cs.length ≤ f₁ → cs.length ≤ f₂ →
      findTokensAux f₁ cs = findTokensAux f₂ cs := by
  intro f₁
  induction f₁ with
  | zero =>
    intro f₂ cs h₁ h₂
    have hnil : cs = [] := List.length_eq_zero.mp (Nat.le_zero.mp h₁)
    subst hnil
    cases f₂ <;> rfl
  | succ n ih =>
    intro f₂ cs h₁ h₂
    cases cs with
    | nil => cases f₂ <;> rfl
    | cons c rest =>
      cases f₂ with
      | zero => simp at h₂
      | succ m =>
        simp only [findTokensAux]
        simp only [List.length_cons] at h₁ h₂
        by_cases hc : c.isAlpha = true
        · rw [if_pos hc, if_pos hc]
          by_cases hrun : (rest.takeWhile isWordTail).isEmpty = true
          · rw [if_pos hrun, if_pos hrun]
            exact ih m rest (by omega) (by omega)
          · rw [if_neg hrun, if_neg hrun]
            congr 1
            exact ih m _
              (by rw [List.length_drop]; omega)
              (by rw [List.length_drop]; omega)
        · rw [if_neg hc, if_neg hc]
          exact ih m rest (by omega) (by omega)

theorem findTokensAux_newline :
    ∀ (fuel : Nat) (la lb : List Char), (la ++ '\n' :: lb).length ≤ fuel →
      findTokensAux fuel (la ++ '\n' :: lb) =
        findTokensAux la.length la ++ findTokensAux lb.length lb := by
  intro fuel
  induction fuel with
  | zero =>
    intro la lb h
    simp [List.length_append] at h
  | succ n ih =>
    intro la lb h
    simp only [List.length_append, List.length_cons] at h
    cases la with
    | nil =>
      simp only [List.nil_append, findTokensAux]
      rw [if_neg (by decide : ¬ ('\n'.isAlpha = true))]
      rw [findTokensAux_fuel n lb.length lb (by simp at h; omega) le_rfl]
    | cons c la' =>
      simp only [List.cons_append, List.length_cons, findTokensAux]
      simp only [List.append_eq]
      simp only [List.length_cons] at h
      by_cases hc : c.isAlpha = true
      · rw [if_pos hc, if_pos hc]
        rw [takeWhile_append_cons_of_neg isWordTail la' '\n' lb (by decide)]
        by_cases hrun : (la'.takeWhile isWordTail).isEmpty = true
        · rw [if_pos hrun, if_pos hrun]
          exact ih la' lb (by simp [List.length_append]; omega)
        · rw [if_neg hrun, if_neg hrun]
          have hkle : (la'.takeWhile isWordTail).length ≤ la'.length :=
            (List.takeWhile_sublist isWordTail).length_le
          rw [List.drop_append_of_le_length hkle]
          rw [ih (la'.drop (la'.takeWhile isWordTail).length) lb
            (by simp [List.length_append, List.length_drop]; omega)]
          rw [List.cons_append]
          congr 2
          exact findTokensAux_fuel _ _ _
            (by simp only [List.length_drop]; omega)
            (by simp only [List.length_drop]; omega)
      · rw [if_neg hc, if_neg hc]
        exact ih la' lb (by simp [List.length_append]; omega)

theorem simple_tokenize_join (l : List String) :
    simple_tokenize (pyJoin "\n" l) = (l.map simple_tokenize).flatten := by
  induction l with
  | nil => rfl
  | cons t ts ih =>
    cases ts with
    | nil => simp [pyJoin]
    | cons u ts' =>
      have hdata : (pyLower (pyJoin "\n" (t :: u :: ts'))).data
          = (pyLower t).data ++ '\n' :: (pyLower (pyJoin "\n" (u :: ts'))).data := by
        show (pyJoin "\n" (t :: u :: ts')).data.map pyLowerChar
            = t.data.map pyLowerChar ++ '\n' :: (pyJoin "\n" (u :: ts')).data.map pyLowerChar
        rw [show pyJoin "\n" (t :: u :: ts') = t ++ "\n" ++ pyJoin "\n" (u :: ts') from rfl]
        rw [String.data_append, String.data_append]
        simp only [List.map_append]
        rw [show ("\n" : String).data.map pyLowerChar = ['\n'] from by decide]
        simp
      show findTokensAux (pyLower (pyJoin "\n" (t :: u :: ts'))).data.length
            (pyLower (pyJoin "\n" (t :: u :: ts'))).data = _
      rw [hdata, findTokensAux_newline _ _ _ le_rfl]
      rw [show findTokensAux (pyLower (pyJoin "\n" (u :: ts'))).data.length
            (pyLower (pyJoin "\n" (u :: ts'))).data
          = simple_tokenize (pyJoin "\n" (u :: ts')) from rfl]
      rw [ih]
      rfl

/-! ### The 30-term analyzer input of the spec's top-K scenario -/

/-- Thirty distinct terms, all longer than two characters and outside the
fallback stopword list. -/
def terms30 : List String :=
  ["taa", "tab", "tac", "tad", "tae", "taf", "tag", "tah", "tai", "taj",
   "tba", "tbb", "tbc", "tbd", "tbe", "tbf", "tbg", "tbh", "tbi", "tbj",
   "tca", "tcb", "tcc", "tcd", "tce", "tcf", "tcg", "tch", "tci", "tcj"]

/-- The expected token lists: term number i occurs i+1 times, so all thirty
frequencies are distinct and nonzero. -/
def words30 : List (List String) :=
  terms30.enum.map fun it => List.replicate (it.1 + 1) it.2

/-- One abstract per term, the term repeated. -/
def abstracts30 : List String :=
  terms30.enum.map fun it => pyJoin " " (List.replicate (it.1 + 1) it.2)

theorem abstracts30_tokens : abstracts30.map simple_tokenize = words30 := by decide

theorem corpus30_tokens :
    simple_tokenize (pyJoin "\n" abstracts30) = words30.flatten := by
  rw [simple_tokenize_join, abstracts30_tokens]

theorem mem_words30_flatten {t : String} (h : t ∈ words30.flatten) : t ∈ terms30 := by
  rw [List.mem_flatten] at h
  rcases h with ⟨l, hl, htl⟩
  rw [words30, List.mem_map] at hl
  rcases hl with ⟨it, hit, rfl⟩
  have := List.eq_of_mem_replicate htl
  subst this
  have : it.2 ∈ List.map Prod.snd terms30.enum := List.mem_map_of_mem _ hit
  rwa [List.enum_map_snd] at this

theorem terms30_mem_flatten {t : String} (h : t ∈ terms30) : t ∈ words30.flatten := by
  rw [← List.enum_map_snd terms30, List.mem_map] at h
  rcases h with ⟨it, hit, rfl⟩
  rw [List.mem_flatten]
  exact ⟨List.replicate (it.1 + 1) it.2, List.mem_map_of_mem _ hit,
    List.mem_replicate.mpr ⟨Nat.succ_ne_zero _, rfl⟩⟩

theorem words30_kept :
    fallbackWords (pyJoin "\n" abstracts30) = words30.flatten := by
  rw [fallbackWords, corpus30_tokens]
  rw [List.filter_eq_self]
  intro t ht
  have h30 : terms30.all fallbackKeep = true := by decide
  exact List.all_eq_true.mp h30 t (mem_words30_flatten ht)

/-- The three rankings of extract_stats are always most_common results. -/
theorem extract_stats_shape (nlpo : Option SpacyNlp) (abstracts : List String) :
    ∃ a b c, extract_stats nlpo abstracts =
      ⟨mostCommon 15 a, mostCommon 10 b, mostCommon 10 c⟩ := by
  cases nlpo with
  | none => exact ⟨counter (fallbackWords (pyJoin "\n" abstracts)), [], [], rfl⟩
  | some nlp =>
    have hun : extract_stats (some nlp) abstracts =
        if nlp.pipe_names.isEmpty then extractFallback (pyJoin "\n" abstracts)
        else extractAnnotated nlp (pyJoin "\n" abstracts) := rfl
    cases hp : nlp.pipe_names.isEmpty
    · have hb : extract_stats (some nlp) abstracts
          = extractAnnotated nlp (pyJoin "\n" abstracts) := by
        rw [hun, hp]
        simp only [Bool.false_eq_true, if_false]
      exact ⟨counter (word_lemmas (nlp.run (pyJoin "\n" abstracts))),
        counter (verb_lemmas (nlp.run (pyJoin "\n" abstracts))),
        counter (topic_chunks nlp.stopwords (nlp.run (pyJoin "\n" abstracts))), hb⟩
    · have hb : extract_stats (some nlp) abstracts
          = extractFallback (pyJoin "\n" abstracts) := by
        rw [hun, hp]
        simp only [if_true]
      exact ⟨counter (fallbackWords (pyJoin "\n" abstracts)), [], [], hb⟩

/-- C4: every extract_stats output is capped at 15/10/10 entries, each list
non-increasing by count; the 30-term distinct-frequency input fills the word
ranking to exactly 15. -/
theorem extract_stats_topk (nlpo : Option SpacyNlp) (abstracts : List String) :
    (extract_stats nlpo abstracts).top_words.length ≤ 15 ∧
    (extract_stats nlpo abstracts).top_verbs.length ≤ 10 ∧
    (extract_stats nlpo abstracts).topics.length ≤ 10 ∧
    (extract_stats nlpo abstracts).top_words.Pairwise (fun a b => b.2 ≤ a.2) ∧
    (extract_stats nlpo abstracts).top_verbs.Pairwise (fun a b => b.2 ≤ a.2) ∧
    (extract_stats nlpo abstracts).topics.Pairwise (fun a b => b.2 ≤ a.2) ∧
    (extract_stats none abstracts30).top_words.length = 15 := by
  obtain ⟨a, b, c, hs⟩ := extract_stats_shape nlpo abstracts
  rw [hs]
  refine ⟨mostCommon_length_le _ _, mostCommon_length_le _ _, mostCommon_length_le _ _,
    mostCommon_pairwise _ _, mostCommon_pairwise _ _, mostCommon_pairwise _ _, ?_⟩
  have h0 : extract_stats none abstracts30 = extractFallback (pyJoin "\n" abstracts30) := rfl
  have h1 : extractFallback (pyJoin "\n" abstracts30)
      = ⟨mostCommon 15 (counter (fallbackWords (pyJoin "\n" abstracts30))), [], []⟩ := rfl
  rw [h0, h1]
  dsimp only
  rw [words30_kept, length_mostCommon]
  have hsub : terms30.toFinset ⊆
      ((counter words30.flatten).map Prod.fst).toFinset := by
    intro t ht
    rw [List.mem_toFinset] at ht ⊢
    exact mem_keys_counter words30.flatten [] t (Or.inr (terms30_mem_flatten ht))
  have h1 : terms30.toFinset.card = 30 := by decide
  have h2 := Finset.card_le_card hsub
  have h3 := List.toFinset_card_le ((counter words30.flatten).map Prod.fst)
  have h4 : ((counter words30.flatten).map Prod.fst).length
      = (counter words30.flatten).length := List.length_map _ _
  omega

/-- C8: without the spaCy pipeline the verb and topic rankings are empty,
and the word ranking counts exactly the filtered tokenizer output: tokens
longer than two characters outside the fixed stopword list, each with its
occurrence count. -/
theorem extract_stats_fallback_mode (abstracts : List String) :
    (extract_stats none abstracts).top_verbs = [] ∧
    (extract_stats none abstracts).topics = [] ∧
    ∀ p ∈ (extract_stats none abstracts).top_words,
      p.1 ∈ fallbackWords (pyJoin "\n" abstracts) ∧
      2 < p.1.length ∧ ¬ p.1 ∈ basic_stop ∧
      p.2 = (fallbackWords (pyJoin "\n" abstracts)).count p.1 := by
  refine ⟨rfl, rfl, ?_⟩
  intro p hp
  have hp' : p ∈ counter (fallbackWords (pyJoin "\n" abstracts)) :=
    mem_mostCommon 15 _ hp
  have hspec := counter_spec _ p hp'
  have hkeep : fallbackKeep p.1 = true := List.of_mem_filter hspec.1
  have hgood : ¬ p.1 ∈ basic_stop ∧ 2 < p.1.length := by
    simp only [fallbackKeep, Bool.and_eq_true, Bool.not_eq_true',
      decide_eq_true_eq] at hkeep
    refine ⟨fun hmem => ?_, hkeep.2⟩
    have : basic_stop.contains p.1 = true := by
      rw [List.contains_eq_any_beq]
      rw [List.any_eq_true]
      exact ⟨p.1, hmem, by simp⟩
    rw [this] at hkeep
    exact absurd hkeep.1 (by simp)
  exact ⟨hspec.1, hgood.2, hgood.1, hspec.2⟩

/-- C8 witness: the characterization instantiated on a concrete corpus and
the entry for "cat". -/
theorem extract_stats_fallback_mode_witness :
    ("cat" : String) ∈ fallbackWords (pyJoin "\n" ["cat cat dog"]) ∧
    2 < ("cat" : String).length ∧ ¬ ("cat" : String) ∈ basic_stop ∧
    (2 : Nat) = (fallbackWords (pyJoin "\n" ["cat cat dog"])).count "cat" :=
  (extract_stats_fallback_mode ["cat cat dog"]).2.2 ("cat", 2) (by decide)

/-! ### Claim theorems about the handler -/

/-- C9: in every successful /analyze response the titles array and the years
array have the same length, that length equals the works_used field, and
works_used is between 1 and 10 inclusive. -/
theorem analyze_success_parallel_arrays (nlpo : Option SpacyNlp) (up : Upstream)
    (orcid author : Option String) (r : OkResp) (tr : List UpCall)
    (h : analyze nlpo up orcid author = (.ok r, tr)) :
    r.titles.length = r.works_used ∧ r.years.length = r.works_used ∧
    1 ≤ r.works_used ∧ r.works_used ≤ 10 := by
  unfold analyze at h
  split at h
  next e tr' heq =>
    injection h with h1 h2
    cases h1
  next obj tr' heq =>
    injection h with h1 h2
    exact (analyzeWorks_ok nlpo up orcid obj r h1).2

/-- C10: with a non-empty orcid parameter the author parameter has no effect
on the response, and successful responses echo the orcid parameter
verbatim. -/
theorem analyze_orcid_ignores_author (nlpo : Option SpacyNlp) (up : Upstream)
    (o : String) (a₁ a₂ : Option String) (ho : o ≠ "") :
    analyze nlpo up (some o) a₁ = analyze nlpo up (some o) a₂ ∧
    ∀ (r : OkResp) (tr : List UpCall),
      analyze nlpo up (some o) a₁ = (.ok r, tr) → r.orcid = some o := by
  constructor
  · unfold analyze
    rw [resolve_author_orcid up o a₁ ho, resolve_author_orcid up o a₂ ho]
  · intro r tr h
    unfold analyze at h
    rw [resolve_author_orcid up o a₁ ho] at h
    split at h
    next e tr' heq =>
      injection h with h1 h2
      cases h1
    next obj tr' heq =>
      injection h with h1 h2
      exact (analyzeWorks_ok nlpo up (some o) obj r h1).1

/-- Upstream oracle answering every authors query with 200 and an empty
result list. -/
def upC1 : Upstream where
  authorsByOrcid := fun _ => ⟨200, []⟩
  authorById := fun _ => ⟨200, ⟨none, none⟩⟩
  works := fun _ => ⟨200, []⟩

/-- C1 counterexample: the malformed ORCID "abcd-0002-1825-0097" is not
rejected with a 400 before a network call; the handler queries the upstream
authors endpoint (the call appears in the trace) and responds 404 when no
author matches. -/
theorem orcid_no_validation_counterexample :
    analyze none upC1 (some "abcd-0002-1825-0097") none =
      (.error ⟨404, "Author not found for given ORCID"⟩,
       [.authorsQuery "abcd-0002-1825-0097"]) ∧
    (404 : Nat) ≠ 400 :=
  ⟨rfl, by decide⟩

/-- C1 (amended): the handler performs no ORCID syntax validation: every
request with a non-empty orcid parameter issues an upstream authors query as
its first network call and is never answered with status 400. -/
theorem orcid_path_no_validation (nlpo : Option SpacyNlp) (up : Upstream)
    (o : String) (a : Option String) (ho : o ≠ "") :
    (analyze nlpo up (some o) a).2.head? = some (.authorsQuery o) ∧
    ∀ e : ErrResp, (analyze nlpo up (some o) a).1 = .error e → e.status ≠ 400 := by
  unfold analyze
  rw [resolve_author_orcid up o a ho]
  rcases hfa : fetch_author_by_orcid up o with e₁ | obj
  · refine ⟨rfl, fun e he => ?_⟩
    have he' : (Except.error e₁ : Except ErrResp OkResp) = .error e := he
    have h3 : e₁ = e := by injection he'
    rw [← h3]
    rcases fetch_author_by_orcid_error up o e₁ hfa with h | h <;> rw [h] <;> decide
  · refine ⟨rfl, fun e he => ?_⟩
    have he' : analyzeWorks nlpo up (some o) obj = .error e := he
    rcases analyzeWorks_error_status nlpo up (some o) obj e he' with h | h <;>
      rw [h] <;> decide

/-- C1 witness: the well-formed ORCID of the spec examples instantiates the
amended theorem. -/
theorem orcid_path_no_validation_witness :
    (analyze none upC1 (some "0000-0002-1825-0097") none).2.head? =
      some (.authorsQuery "0000-0002-1825-0097") ∧
    ∀ e : ErrResp,
      (analyze none upC1 (some "0000-0002-1825-0097") none).1 = .error e →
      e.status ≠ 400 :=
  orcid_path_no_validation none upC1 "0000-0002-1825-0097" none (by decide)

/-- Upstream oracle whose author-by-ID endpoint fails with a 500. -/
def upC2 : Upstream where
  authorsByOrcid := fun _ => ⟨500, []⟩
  authorById := fun _ => ⟨500, ⟨none, none⟩⟩
  works := fun _ => ⟨200, []⟩

/-- C2 counterexample: on the native-author-ID path an upstream 500 for the
author lookup is answered with 404, not 502. -/
theorem author_id_upstream_failure_counterexample :
    analyze none upC2 none (some "A1969205032") =
      (.error ⟨404, "Author not found for given ID"⟩, [.authorGet "A1969205032"]) ∧
    (404 : Nat) ≠ 502 :=
  ⟨rfl, by decide⟩

/-- C2 (amended): when the upstream author lookup returns a non-success
status, the ORCID path answers 502 while the native-author-ID path answers
404; in both cases no works are fetched (the trace holds only the failed
author lookup). -/
theorem upstream_author_lookup_failure_statuses :
    (∀ (nlpo : Option SpacyNlp) (up : Upstream) (o : String) (a : Option String),
      o ≠ "" → (up.authorsByOrcid o).status ≠ 200 →
      analyze nlpo up (some o) a =
        (.error ⟨502, "Failed to query OpenAlex authors"⟩, [.authorsQuery o])) ∧
    (∀ (nlpo : Option SpacyNlp) (up : Upstream) (a url : String),
      a ≠ "" → authorUrlOf (pyStripStr a) = .ok url →
      (up.authorById (lastPathPart url)).status ≠ 200 →
      analyze nlpo up none (some a) =
        (.error ⟨404, "Author not found for given ID"⟩,
         [.authorGet (lastPathPart url)])) := by
  constructor
  · intro nlpo up o a ho hs
    unfold analyze
    rw [resolve_author_orcid up o a ho]
    have hfa : fetch_author_by_orcid up o =
        .error ⟨502, "Failed to query OpenAlex authors"⟩ := by
      unfold fetch_author_by_orcid
      rw [if_pos hs]
    rw [hfa]
  · intro nlpo up a url ha hurl hs
    unfold analyze
    have hres : resolve_author up none (some a) =
        (.error ⟨404, "Author not found for given ID"⟩,
         [.authorGet (lastPathPart url)]) := by
      unfold resolve_author
      rw [isFalsyOpt_some_of_ne ha]
      simp only [isFalsyOpt_none, Bool.and_false, Bool.not_true]
      rw [hurl]
      simp only [if_pos hs]
      rfl
    rw [hres]

/-- C2 witness: both failure scenarios instantiated at concrete oracles and
identifiers. -/
theorem upstream_author_lookup_failure_statuses_witness :
    analyze none upC2 (some "0000-0002-1825-0097") none =
      (.error ⟨502, "Failed to query OpenAlex authors"⟩,
       [.authorsQuery "0000-0002-1825-0097"]) ∧
    analyze none upC2 none (some "A77") =
      (.error ⟨404, "Author not found for given ID"⟩, [.authorGet "A77"]) :=
  ⟨upstream_author_lookup_failure_statuses.1 none upC2 "0000-0002-1825-0097" none
     (by decide) (by decide),
   upstream_author_lookup_failure_statuses.2 none upC2 "A77" "https://openalex.org/A77"
     (by decide) rfl (by decide)⟩

/-- C10 witness: the ignore-author and echo properties instantiated at a
concrete oracle, with the author parameter varied. -/
theorem analyze_orcid_ignores_author_witness :
    analyze none upC1 (some "0000-0002-1825-0097") none =
      analyze none upC1 (some "0000-0002-1825-0097") (some "A1969205032") ∧
    ∀ (r : OkResp) (tr : List UpCall),
      analyze none upC1 (some "0000-0002-1825-0097") none = (.ok r, tr) →
      r.orcid = some "0000-0002-1825-0097" :=
  analyze_orcid_ignores_author none upC1 "0000-0002-1825-0097" none
    (some "A1969205032") (by decide)

/-- When author resolution succeeds, the handler runs the works stage and
records the works query. -/
theorem analyze_of_resolve_ok (nlpo : Option SpacyNlp) (up : Upstream)
    (orcid author : Option String) (obj : AuthorObj) (tr : List UpCall)
    (hres : resolve_author up orcid author = (.ok obj, tr)) :
    analyze nlpo up orcid author =
      (analyzeWorks nlpo up orcid obj, tr ++ [.worksQuery obj.id]) := by
  unfold analyze
  rw [hres]

/-- If every fetched work reconstructs to the empty string, the per-work
loop collects nothing. -/
theorem collectAbstracts_nil_of_all_empty (ws : List WorkObj)
    (h : ∀ w ∈ ws,
      reconstruct_openalex_abstract (w.abstract_inverted_index.getD []) = "") :
    (collectAbstracts ws).1 = [] := by
  induction ws with
  | nil => rfl
  | cons w ws ih =>
    simp only [collectAbstracts]
    rw [h w (List.mem_cons_self w ws)]
    rw [if_pos (show ("" : String).isEmpty = true from rfl)]
    exact ih fun w' hw' => h w' (List.mem_cons_of_mem _ hw')

/-- C5: when author resolution succeeds, the works endpoint answers 200, and
no fetched work yields a nonempty reconstructed abstract, the handler
responds 404 and no statistics are computed or returned. -/
theorem analyze_no_abstracts_404 (nlpo : Option SpacyNlp) (up : Upstream)
    (orcid author : Option String) (obj : AuthorObj) (tr : List UpCall)
    (hres : resolve_author up orcid author = (.ok obj, tr))
    (hst : (up.works obj.id).status = 200)
    (hall : ∀ w ∈ selectWorks 10 [] (up.works obj.id).body,
      reconstruct_openalex_abstract (w.abstract_inverted_index.getD []) = "") :
    analyze nlpo up orcid author =
      (.error ⟨404, "No abstracts found for the last works"⟩,
       tr ++ [.worksQuery obj.id]) := by
  rw [analyze_of_resolve_ok nlpo up orcid author obj tr hres]
  have hfw : fetch_recent_works up obj.id 10
      = .ok (selectWorks 10 [] (up.works obj.id).body) := by
    unfold fetch_recent_works
    rw [if_neg (by rw [hst]; simp)]
  have hcol : (collectAbstracts (selectWorks 10 [] (up.works obj.id).body)).1 = [] :=
    collectAbstracts_nil_of_all_empty _ hall
  have hws : analyzeWorks nlpo up orcid obj
      = .error ⟨404, "No abstracts found for the last works"⟩ := by
    simp [analyzeWorks, hfw, hcol]
  rw [hws]

/-- Upstream oracle: the author is found, but the works query returns an
empty result list. -/
def upC5 : Upstream where
  authorsByOrcid := fun _ => ⟨200, [⟨some "A9", some "Jane"⟩]⟩
  authorById := fun _ => ⟨200, ⟨none, none⟩⟩
  works := fun _ => ⟨200, []⟩

/-- C5 witness: the 404 instantiated at a concrete oracle with zero works. -/
theorem analyze_no_abstracts_404_witness :
    analyze none upC5 (some "0000-0002-1825-0097") none =
      (.error ⟨404, "No abstracts found for the last works"⟩,
       [.authorsQuery "0000-0002-1825-0097", .worksQuery (some "A9")]) :=
  analyze_no_abstracts_404 none upC5 (some "0000-0002-1825-0097") none
    ⟨some "A9", some "Jane"⟩ [.authorsQuery "0000-0002-1825-0097"] rfl rfl
    (fun w hw => absurd hw (by simp [selectWorks]))

/-- C6: the reconstructor skips unfilled positions rather than rendering
them as blanks: the inverted index mapping "a" to position 0 and "b" to
position 2 reconstructs to exactly "a b". -/
theorem reconstruct_gap_example :
    reconstruct_openalex_abstract [("a", [0]), ("b", [2])] = "a b" := by decide

/-- Upstream oracle for a fully successful run: one author, one work with a
two-token abstract. -/
def upC9 : Upstream where
  authorsByOrcid := fun _ =>
    ⟨200, [⟨some "https://openalex.org/A1", some "Jane Roe"⟩]⟩
  authorById := fun _ => ⟨200, ⟨none, none⟩⟩
  works := fun _ =>
    ⟨200, [⟨some [("neural", [0]), ("networks", [1])], some "Paper", some 2024⟩]⟩

/-- The response produced on the successful run of the C9 witness. -/
def rC9 : OkResp :=
  ⟨some "Jane Roe", some "0000-0002-1825-0097", 1, ["Paper"], [some 2024],
   [("neural", 1), ("networks", 1)], [], []⟩

/-- C9 witness: the parallel-array and bounds invariants instantiated on a
concrete successful run. -/
theorem analyze_success_parallel_arrays_witness :
    rC9.titles.length = rC9.works_used ∧ rC9.years.length = rC9.works_used ∧
    1 ≤ rC9.works_used ∧ rC9.works_used ≤ 10 :=
  analyze_success_parallel_arrays none upC9 (some "0000-0002-1825-0097") none rC9
    [.authorsQuery "0000-0002-1825-0097",
     .worksQuery (some "https://openalex.org/A1")] rfl

/-! ### C7: negative positions in the inverted index -/

/-- The same inverted index with all negative positions removed. -/
def filterNeg (inv : List (String × List Int)) : List (String × List Int) :=
  inv.map fun e => (e.1, e.2.filter fun p => decide (0 ≤ p))

theorem base_le_foldl_max : ∀ (ps : List Int) (p : Int), p ≤ ps.foldl max p := by
  intro ps
  induction ps with
  | nil => intro p; exact le_refl p
  | cons q qs ih =>
    intro p
    rw [List.foldl_cons]
    exact le_trans (le_max_left p q) (ih (max p q))

theorem le_intListMax_of_mem {x : Int} :
    ∀ (ps : List Int) (p : Int), x ∈ p :: ps → x ≤ intListMax p ps := by
  intro ps
  induction ps with
  | nil =>
    intro p h
    rcases List.mem_cons.mp h with rfl | h
    · exact le_refl x
    · exact absurd h (List.not_mem_nil x)
  | cons q qs ih =>
    intro p h
    rw [intListMax, List.foldl_cons]
    rcases List.mem_cons.mp h with rfl | h
    · exact le_trans (le_max_left x q) (base_le_foldl_max qs (max x q))
    · rcases List.mem_cons.mp h with rfl | h
      · exact le_trans (le_max_right p x) (base_le_foldl_max qs (max p x))
      · exact ih (max p q) (List.mem_cons_of_mem _ h)

theorem intListMax_mem : ∀ (ps : List Int) (p : Int), intListMax p ps ∈ p :: ps := by
  intro ps
  induction ps with
  | nil => intro p; exact List.mem_cons_self p []
  | cons q qs ih =>
    intro p
    rw [intListMax, List.foldl_cons]
    have h := ih (max p q)
    rw [intListMax] at h
    rcases List.mem_cons.mp h with heq | h
    · rcases max_choice p q with hm | hm
      · rw [heq, hm]; exact List.mem_cons_self p _
      · rw [heq, hm]
        exact List.mem_cons_of_mem _ (List.mem_cons_self q _)
    · exact List.mem_cons_of_mem _ (List.mem_cons_of_mem _ h)

theorem maxStep_ge (m : Int) (e : String × List Int) : m ≤ maxStep m e := by
  rw [maxStep]
  cases e.2 with
  | nil => exact le_refl m
  | cons p ps => exact le_max_left m _

theorem maxStep_filterNeg (m : Int) (hm : 0 ≤ m) (e : String × List Int) :
    maxStep m (e.1, e.2.filter fun p => decide (0 ≤ p)) = maxStep m e := by
  rcases e with ⟨t, ps⟩
  cases ps with
  | nil => rfl
  | cons p ps =>
    simp only [maxStep]
    cases hf : (p :: ps).filter (fun p => decide (0 ≤ p)) with
    | nil =>
      have hall : ∀ x ∈ p :: ps, ¬ (0 ≤ x) := by
        intro x hx hge
        have : x ∈ (p :: ps).filter (fun p => decide (0 ≤ p)) :=
          List.mem_filter.mpr ⟨hx, by simpa using hge⟩
        rw [hf] at this
        exact absurd this (List.not_mem_nil x)
      have hneg : intListMax p ps < 0 := by
        have hmem := intListMax_mem ps p
        have := hall _ hmem
        omega
      have hle : intListMax p ps ≤ m := by omega
      exact (max_eq_left hle).symm
    | cons q qs =>
      have hsub : ∀ x ∈ q :: qs, x ∈ p :: ps := by
        intro x hx
        rw [← hf] at hx
        exact (List.mem_filter.mp hx).1
      have hAB : intListMax q qs ≤ intListMax p ps :=
        le_intListMax_of_mem ps p (hsub _ (intListMax_mem qs q))
      apply le_antisymm
      · exact max_le_max (le_refl m) hAB
      · by_cases hB : 0 ≤ intListMax p ps
        · have hBf : intListMax p ps ∈ q :: qs := by
            rw [← hf]
            exact List.mem_filter.mpr ⟨intListMax_mem ps p, by simpa using hB⟩
          exact max_le_max (le_refl m) (le_intListMax_of_mem qs q hBf)
        · have : intListMax p ps ≤ m := by omega
          rw [max_eq_left this]
          exact le_max_left m _

theorem invMaxPos_filterNeg (inv : List (String × List Int)) :
    invMaxPos (filterNeg inv) = invMaxPos inv := by
  suffices h : ∀ (inv : List (String × List Int)) (m : Int), 0 ≤ m →
      (filterNeg inv).foldl maxStep m = inv.foldl maxStep m by
    exact h inv 0 le_rfl
  intro inv
  induction inv with
  | nil => intro m _; rfl
  | cons e es ih =>
    intro m hm
    rw [filterNeg, List.map_cons, List.foldl_cons, List.foldl_cons]
    rw [maxStep_filterNeg m hm e]
    exact ih (maxStep m e) (le_trans hm (maxStep_ge m e))

theorem writePositions_cons (t : String) (p : Int) (ps : List Int)
    (s : List (Option String)) :
    writePositions t (p :: ps) s =
      writePositions t ps
        (if 0 ≤ p ∧ p < (s.length : Int) then s.set p.toNat (some t) else s) := rfl

theorem writePositions_filterNeg (t : String) :
    ∀ (ps : List Int) (s : List (Option String)),
      writePositions t (ps.filter fun p => decide (0 ≤ p)) s = writePositions t ps s := by
  intro ps
  induction ps with
  | nil => intro s; rfl
  | cons p rest ih =>
    intro s
    by_cases hp : 0 ≤ p
    · rw [List.filter_cons_of_pos (by simpa using hp)]
      rw [writePositions_cons, writePositions_cons]
      exact ih _
    · rw [List.filter_cons_of_neg (by simpa using hp)]
      rw [writePositions_cons]
      rw [if_neg (by intro hand; exact hp hand.1)]
      exact ih s

theorem fillSlots_cons (e : String × List Int) (es : List (String × List Int))
    (s : List (Option String)) :
    fillSlots (e :: es) s = fillSlots es (writePositions e.1 e.2 s) := rfl

theorem fillSlots_filterNeg (inv : List (String × List Int)) :
    ∀ s : List (Option String), fillSlots (filterNeg inv) s = fillSlots inv s := by
  induction inv with
  | nil => intro s; rfl
  | cons e es ih =>
    intro s
    rw [filterNeg, List.map_cons, fillSlots_cons, fillSlots_cons]
    rw [show ((e.1, e.2.filter fun p => decide (0 ≤ p)) : String × List Int).1
        = e.1 from rfl]
    rw [show ((e.1, e.2.filter fun p => decide (0 ≤ p)) : String × List Int).2
        = e.2.filter (fun p => decide (0 ≤ p)) from rfl]
    rw [writePositions_filterNeg e.1 e.2 s]
    exact ih _

/-- C7: the reconstructor ignores negative positions (the write guard skips
them, and they never raise the maximum position): the output equals the
output on the same index with all negative positions removed. -/
theorem reconstruct_ignores_negative_positions (inv : List (String × List Int)) :
    reconstruct_openalex_abstract inv = reconstruct_openalex_abstract (filterNeg inv) := by
  unfold reconstruct_openalex_abstract
  cases inv with
  | nil => rfl
  | cons e es =>
    rw [show (filterNeg (e :: es)).isEmpty = false from rfl]
    rw [show ((e :: es) : List (String × List Int)).isEmpty = false from rfl]
    simp only [Bool.false_eq_true, if_false]
    rw [invMaxPos_filterNeg (e :: es), fillSlots_filterNeg (e :: es)]

/-! ### C3: exact-cover reconstruction

For an inverted index whose positions cover 0..N-1 exactly once, the
reconstructor writes each position's unique owner and the normalization
pass is the identity provided every token is nonempty and free of
whitespace. -/

/-- All positions of an inverted index, in entry order. -/
def allPos (inv : List (String × List Int)) : List Int :=
  (inv.map Prod.snd).flatten

/-- The owner of a position: the first token whose position list holds it
(unique under an exact cover), empty string when unclaimed. -/
def tokenAt (inv : List (String × List Int)) (p : Int) : String :=
  match inv.find? (fun e => e.2.contains p) with
  | some e => e.1
  | none => ""

theorem collapseAux_of_no_ws :
    ∀ (cs : List Char) (b : Bool), (∀ c ∈ cs, isPySpace c = false) →
      collapseAux b cs = cs := by
  intro cs
  induction cs with
  | nil => intro b _; rfl
  | cons c cs ih =>
    intro b h
    have hc := h c (List.mem_cons_self c cs)
    rw [collapseAux]
    rw [if_neg (by simp [hc])]
    rw [ih false fun x hx => h x (List.mem_cons_of_mem _ hx)]

theorem collapseAux_append_of_no_ws :
    ∀ (cs rest : List Char), (∀ c ∈ cs, isPySpace c = false) →
      collapseAux false (cs ++ rest) = cs ++ collapseAux false rest := by
  intro cs rest
  induction cs with
  | nil => intro _; rfl
  | cons c cs ih =>
    intro h
    have hc := h c (List.mem_cons_self c cs)
    rw [List.cons_append, collapseAux]
    rw [if_neg (by simp [hc])]
    rw [ih fun x hx => h x (List.mem_cons_of_mem _ hx)]
    rfl

theorem collapseAux_true_cons (c : Char) (cs : List Char) (hc : isPySpace c = false) :
    collapseAux true (c :: cs) = collapseAux false (c :: cs) := by
  rw [collapseAux, collapseAux]
  rw [if_neg (by simp [hc]), if_neg (by simp [hc])]

theorem pyJoin_cons_cons (t u : String) (ts : List String) :
    (pyJoin " " (t :: u :: ts)).data = t.data ++ ' ' :: (pyJoin " " (u :: ts)).data := by
  rw [show pyJoin " " (t :: u :: ts) = t ++ " " ++ pyJoin " " (u :: ts) from rfl]
  rw [String.data_append, String.data_append]
  rw [show (" " : String).data = [' '] from by decide]
  simp

theorem data_ne_nil_of_ne_empty {t : String} (ht : t ≠ "") :
    ∃ c cs, t.data = c :: cs := by
  cases h : t.data with
  | nil =>
    exact absurd (String.ext (h.trans (by decide))) ht
  | cons c cs => exact ⟨c, cs, rfl⟩

theorem pyJoin_data_head :
    ∀ (ts : List String) (t : String), t ≠ "" →
      ∃ c cs, (pyJoin " " (t :: ts)).data = c :: cs ∧ c ∈ t.data := by
  intro ts t ht
  obtain ⟨c, cs', hd⟩ := data_ne_nil_of_ne_empty ht
  cases ts with
  | nil =>
    refine ⟨c, cs', ?_, ?_⟩
    · rw [show pyJoin " " [t] = t from rfl, hd]
    · rw [hd]; exact List.mem_cons_self _ _
  | cons u ts' =>
    refine ⟨c, cs' ++ ' ' :: (pyJoin " " (u :: ts')).data, ?_, ?_⟩
    · rw [pyJoin_cons_cons, hd]
      rfl
    · rw [hd]; exact List.mem_cons_self _ _

theorem pyJoin_data_getLast :
    ∀ (ts : List String) (t : String),
      (∀ x ∈ t :: ts, x ≠ "" ∧ ∀ c ∈ x.data, isPySpace c = false) →
      ∃ d, (pyJoin " " (t :: ts)).data.getLast? = some d ∧ isPySpace d = false := by
  intro ts
  induction ts with
  | nil =>
    intro t h
    have ht := h t (List.mem_cons_self t [])
    obtain ⟨c, cs, hd⟩ := data_ne_nil_of_ne_empty ht.1
    have hne : (pyJoin " " [t]).data ≠ [] := by
      rw [show pyJoin " " [t] = t from rfl, hd]
      exact List.cons_ne_nil c cs
    obtain ⟨d, hdl⟩ := Option.isSome_iff_exists.mp
      (by rwa [List.getLast?_isSome])
    refine ⟨d, hdl, ?_⟩
    have : d ∈ (pyJoin " " [t]).data := List.mem_of_mem_getLast? hdl
    rw [show pyJoin " " [t] = t from rfl] at this
    exact ht.2 d this
  | cons u ts' ih =>
    intro t h
    obtain ⟨d, hd, hdws⟩ := ih u fun x hx => h x (List.mem_cons_of_mem _ hx)
    obtain ⟨c, cs, hrest, _⟩ :=
      pyJoin_data_head ts' u (h u (List.mem_cons_of_mem _ (List.mem_cons_self u ts'))).1
    refine ⟨d, ?_, hdws⟩
    rw [pyJoin_cons_cons, List.getLast?_append]
    rw [show (' ' :: (pyJoin " " (u :: ts')).data).getLast?
        = (pyJoin " " (u :: ts')).data.getLast? from by rw [hrest]; rfl]
    rw [hd]
    rfl

theorem collapse_pyJoin :
    ∀ (l : List String),
      (∀ x ∈ l, x ≠ "" ∧ ∀ c ∈ x.data, isPySpace c = false) →
      collapseAux false (pyJoin " " l).data = (pyJoin " " l).data := by
  intro l
  induction l with
  | nil => intro _; decide
  | cons t ts ih =>
    intro h
    cases ts with
    | nil =>
      exact collapseAux_of_no_ws (pyJoin " " [t]).data false
        (h t (List.mem_cons_self t _)).2
    | cons u ts' =>
      rw [pyJoin_cons_cons]
      rw [collapseAux_append_of_no_ws t.data _ (h t (List.mem_cons_self t _)).2]
      congr 1
      rw [show collapseAux false (' ' :: (pyJoin " " (u :: ts')).data)
          = ' ' :: collapseAux true (pyJoin " " (u :: ts')).data from by
        rw [collapseAux]; rw [if_pos (by decide)]; rw [if_neg (by decide)]]
      congr 1
      obtain ⟨c, cs, hrest, hcm⟩ :=
        pyJoin_data_head ts' u (h u (List.mem_cons_of_mem _ (List.mem_cons_self u ts'))).1
      have hcws : isPySpace c = false :=
        (h u (List.mem_cons_of_mem _ (List.mem_cons_self u ts'))).2 c hcm
      rw [hrest, collapseAux_true_cons c cs hcws, ← hrest]
      exact ih fun x hx => h x (List.mem_cons_of_mem _ hx)

theorem pyStrip_of_ends (cs : List Char)
    (hhead : ∀ c, cs.head? = some c → isPySpace c = false)
    (hlast : ∀ c, cs.getLast? = some c → isPySpace c = false) :
    pyStripChars cs = cs := by
  cases cs with
  | nil => rfl
  | cons c cs' =>
    have hc : isPySpace c = false := hhead c rfl
    rw [pyStripChars]
    rw [List.dropWhile_cons, if_neg (by simp [hc])]
    cases hr : (c :: cs').reverse with
    | nil => exact absurd hr (by simp)
    | cons d rest =>
      have hd : (c :: cs').getLast? = some d := by
        rw [← List.head?_reverse, hr]
        rfl
      have hdws := hlast d hd
      rw [List.dropWhile_cons, if_neg (by simp [hdws]), ← hr, List.reverse_reverse]

theorem normWs_pyJoin (l : List String)
    (h : ∀ x ∈ l, x ≠ "" ∧ ∀ c ∈ x.data, isPySpace c = false) :
    normWs (pyJoin " " l) = pyJoin " " l := by
  cases l with
  | nil => decide
  | cons t ts =>
    apply String.ext
    show pyStripChars (collapseAux false (pyJoin " " (t :: ts)).data)
        = (pyJoin " " (t :: ts)).data
    rw [collapse_pyJoin (t :: ts) h]
    apply pyStrip_of_ends
    · intro c hc
      obtain ⟨c', cs, hdata, hcm⟩ :=
        pyJoin_data_head ts t (h t (List.mem_cons_self t ts)).1
      rw [hdata] at hc
      have : c' = c := by injection hc
      rw [← this]
      exact (h t (List.mem_cons_self t ts)).2 c' hcm
    · intro d hd
      obtain ⟨d', hd', hws⟩ := pyJoin_data_getLast ts t h
      rw [hd'] at hd
      have : d' = d := by injection hd
      rw [← this]
      exact hws

theorem allPos_cons (e : String × List Int) (es : List (String × List Int)) :
    allPos (e :: es) = e.2 ++ allPos es := rfl

theorem foldl_maxStep_le :
    ∀ (inv : List (String × List Int)) (m B : Int), m ≤ B →
      (∀ x ∈ allPos inv, x ≤ B) → inv.foldl maxStep m ≤ B := by
  intro inv
  induction inv with
  | nil => intro m B hm _; exact hm
  | cons e es ih =>
    intro m B hm hall
    rw [List.foldl_cons]
    apply ih
    · rw [maxStep]
      cases he : e.2 with
      | nil => exact hm
      | cons p ps =>
        apply max_le hm
        apply hall
        rw [allPos_cons, List.mem_append]
        left
        rw [he]
        exact intListMax_mem ps p
    · intro x hx
      exact hall x (by rw [allPos_cons, List.mem_append]; right; exact hx)

theorem foldl_maxStep_base_le :
    ∀ (inv : List (String × List Int)) (m : Int), m ≤ inv.foldl maxStep m := by
  intro inv
  induction inv with
  | nil => intro m; exact le_refl m
  | cons e es ih =>
    intro m
    rw [List.foldl_cons]
    exact le_trans (maxStep_ge m e) (ih (maxStep m e))

theorem le_foldl_maxStep_of_mem :
    ∀ (inv : List (String × List Int)) (m x : Int),
      x ∈ allPos inv → x ≤ inv.foldl maxStep m := by
  intro inv
  induction inv with
  | nil => intro m x hx; exact absurd hx (by simp [allPos])
  | cons e es ih =>
    intro m x hx
    rw [List.foldl_cons]
    rw [allPos_cons, List.mem_append] at hx
    rcases hx with hx | hx
    · have h1 : x ≤ maxStep m e := by
        rw [maxStep]
        cases he : e.2 with
        | nil => rw [he] at hx; exact absurd hx (List.not_mem_nil x)
        | cons p ps =>
          rw [he] at hx
          exact le_trans (le_intListMax_of_mem ps p hx) (le_max_right m _)
      exact le_trans h1 (foldl_maxStep_base_le es (maxStep m e))
    · exact ih (maxStep m e) x hx

theorem invMaxPos_of_cover (inv : List (String × List Int)) (N : Nat) (hN : 0 < N)
    (hcover : (allPos inv).Perm ((List.range N).map (Nat.cast : Nat → Int))) :
    invMaxPos inv = ((N - 1 : Nat) : Int) := by
  apply le_antisymm
  · apply foldl_maxStep_le
    · omega
    · intro x hx
      have hx' := hcover.mem_iff.mp hx
      rw [List.mem_map] at hx'
      rcases hx' with ⟨i, hi, rfl⟩
      rw [List.mem_range] at hi
      omega
  · apply le_foldl_maxStep_of_mem
    apply hcover.mem_iff.mpr
    rw [List.mem_map]
    exact ⟨N - 1, List.mem_range.mpr (by omega), rfl⟩

theorem length_writePositions (t : String) :
    ∀ (ps : List Int) (s : List (Option String)),
      (writePositions t ps s).length = s.length := by
  intro ps
  induction ps with
  | nil => intro s; rfl
  | cons p rest ih =>
    intro s
    rw [writePositions_cons, ih]
    split
    · rw [List.length_set]
    · rfl

theorem length_fillSlots :
    ∀ (inv : List (String × List Int)) (s : List (Option String)),
      (fillSlots inv s).length = s.length := by
  intro inv
  induction inv with
  | nil => intro s; rfl
  | cons e es ih =>
    intro s
    rw [fillSlots_cons, ih, length_writePositions]

theorem getElem?_writePositions_of_not_mem (t : String) :
    ∀ (ps : List Int) (s : List (Option String)) (i : Nat),
      ¬ ((i : Int) ∈ ps) → (writePositions t ps s)[i]? = s[i]? := by
  intro ps
  induction ps with
  | nil => intro s i _; rfl
  | cons p rest ih =>
    intro s i hni
    have hpi : p ≠ (i : Int) := fun h => hni (h ▸ List.mem_cons_self p rest)
    have hni' : ¬ ((i : Int) ∈ rest) := fun h => hni (List.mem_cons_of_mem _ h)
    rw [writePositions_cons, ih _ i hni']
    split
    next hcond =>
      apply List.getElem?_set_ne
      intro hEq
      apply hpi
      have h0 := hcond.1
      omega
    next => rfl

theorem getElem?_fillSlots_of_not_mem :
    ∀ (inv : List (String × List Int)) (s : List (Option String)) (i : Nat),
      ¬ ((i : Int) ∈ allPos inv) → (fillSlots inv s)[i]? = s[i]? := by
  intro inv
  induction inv with
  | nil => intro s i _; rfl
  | cons e es ih =>
    intro s i hni
    rw [allPos_cons] at hni
    have h1 : ¬ ((i : Int) ∈ e.2) := fun h => hni (List.mem_append.mpr (Or.inl h))
    have h2 : ¬ ((i : Int) ∈ allPos es) := fun h => hni (List.mem_append.mpr (Or.inr h))
    rw [fillSlots_cons, ih _ i h2, getElem?_writePositions_of_not_mem e.1 e.2 s i h1]

theorem getElem?_writePositions_of_mem (t : String) :
    ∀ (ps : List Int) (s : List (Option String)) (i : Nat),
      (i : Int) ∈ ps → i < s.length →
      (writePositions t ps s)[i]? = some (some t) := by
  intro ps
  induction ps with
  | nil => intro s i h _; exact absurd h (List.not_mem_nil _)
  | cons p rest ih =>
    intro s i hmem hlen
    rw [writePositions_cons]
    by_cases hr : (i : Int) ∈ rest
    · refine ih _ i hr ?_
      split
      · rw [List.length_set]; exact hlen
      · exact hlen
    · have hp : p = (i : Int) := by
        rcases List.mem_cons.mp hmem with h | h
        · exact h.symm
        · exact absurd h hr
      rw [getElem?_writePositions_of_not_mem t rest _ i hr]
      rw [if_pos (by constructor <;> omega)]
      rw [show p.toNat = i from by omega]
      exact List.getElem?_set_self hlen

theorem tokenAt_cons_of_mem (e : String × List Int) (es : List (String × List Int))
    {p : Int} (hp : p ∈ e.2) : tokenAt (e :: es) p = e.1 := by
  have hfind : List.find? (fun x => x.2.contains p) (e :: es) = some e :=
    List.find?_cons_of_pos es (List.elem_eq_true_of_mem hp)
  simp only [tokenAt, hfind]

theorem tokenAt_cons_of_not_mem (e : String × List Int) (es : List (String × List Int))
    {p : Int} (hp : ¬ p ∈ e.2) : tokenAt (e :: es) p = tokenAt es p := by
  have hfind : List.find? (fun x => x.2.contains p) (e :: es)
      = List.find? (fun x => x.2.contains p) es :=
    List.find?_cons_of_neg es fun hc => hp (List.mem_of_elem_eq_true hc)
  simp only [tokenAt, hfind]

theorem tokenAt_mem_of_mem_allPos {inv : List (String × List Int)} {p : Int}
    (hp : p ∈ allPos inv) : ∃ e ∈ inv, tokenAt inv p = e.1 := by
  rw [allPos, List.mem_flatten] at hp
  rcases hp with ⟨l, hl, hpl⟩
  rw [List.mem_map] at hl
  rcases hl with ⟨e, he, rfl⟩
  have hsome : (inv.find? (fun e => e.2.contains p)).isSome = true :=
    List.find?_isSome.mpr ⟨e, he, List.elem_eq_true_of_mem hpl⟩
  obtain ⟨e', he'⟩ := Option.isSome_iff_exists.mp hsome
  refine ⟨e', List.mem_of_find?_eq_some he', ?_⟩
  simp only [tokenAt]
  rw [he']

theorem fillSlots_getElem_of_nodup :
    ∀ (inv : List (String × List Int)) (s : List (Option String)) (i : Nat),
      (allPos inv).Nodup → i < s.length → (i : Int) ∈ allPos inv →
      (fillSlots inv s)[i]? = some (some (tokenAt inv (i : Int))) := by
  intro inv
  induction inv with
  | nil => intro s i _ _ h; exact absurd h (by simp [allPos])
  | cons e es ih =>
    intro s i hnd hlen hmem
    rw [fillSlots_cons]
    rw [allPos_cons] at hnd hmem
    have hparts := List.nodup_append.mp hnd
    rcases List.mem_append.mp hmem with hm | hm
    · have hnotes : ¬ ((i : Int) ∈ allPos es) := fun h => hparts.2.2 hm h
      rw [getElem?_fillSlots_of_not_mem es _ i hnotes]
      rw [getElem?_writePositions_of_mem e.1 e.2 s i hm hlen]
      rw [tokenAt_cons_of_mem e es hm]
    · have hnote : ¬ ((i : Int) ∈ e.2) := fun h => hparts.2.2 h hm
      rw [tokenAt_cons_of_not_mem e es hnote]
      exact ih _ i hparts.2.1 (by rw [length_writePositions]; exact hlen) hm

theorem fillSlots_eq_map (inv : List (String × List Int)) (N : Nat)
    (hcover : (allPos inv).Perm ((List.range N).map (Nat.cast : Nat → Int))) :
    fillSlots inv (List.replicate N none) =
      (List.range N).map (fun (i : Nat) => some (tokenAt inv (i : Int))) := by
  have hnd : (allPos inv).Nodup :=
    hcover.nodup_iff.mpr
      (List.Nodup.map (fun a b h => by exact_mod_cast h) (List.nodup_range N))
  apply List.ext_getElem?
  intro n
  by_cases hn : n < N
  · rw [fillSlots_getElem_of_nodup inv _ n hnd
      (by rw [List.length_replicate]; exact hn)
      (hcover.mem_iff.mpr (List.mem_map.mpr ⟨n, List.mem_range.mpr hn, rfl⟩))]
    rw [List.getElem?_map, List.getElem?_range hn]
    rfl
  · rw [List.getElem?_eq_none, List.getElem?_eq_none]
    · rw [List.length_map, List.length_range]; omega
    · rw [length_fillSlots, List.length_replicate]; omega

theorem filterMap_eq_map_of_some {α β : Type} (g : α → Option β) (f : α → β) :
    ∀ l : List α, (∀ a ∈ l, g a = some (f a)) → l.filterMap g = l.map f := by
  intro l
  induction l with
  | nil => intro _; rfl
  | cons a as ih =>
    intro h
    rw [List.filterMap_cons, h a (List.mem_cons_self _ _), List.map_cons,
      ih fun x hx => h x (List.mem_cons_of_mem _ hx)]

theorem keptTokens_map_some (inv : List (String × List Int)) (N : Nat)
    (hcover : (allPos inv).Perm ((List.range N).map (Nat.cast : Nat → Int)))
    (htok : ∀ e ∈ inv, e.1 ≠ "") :
    keptTokens ((List.range N).map fun (i : Nat) => some (tokenAt inv (i : Int)))
      = (List.range N).map fun (i : Nat) => tokenAt inv (i : Int) := by
  rw [keptTokens, List.filterMap_map]
  apply filterMap_eq_map_of_some
  intro i hi
  have hne : tokenAt inv (i : Int) ≠ "" := by
    have hmem : ((i : Int)) ∈ allPos inv :=
      hcover.mem_iff.mpr (List.mem_map.mpr ⟨i, hi, rfl⟩)
    obtain ⟨e, he, heq⟩ := tokenAt_mem_of_mem_allPos hmem
    rw [heq]
    exact htok e he
  show (if (tokenAt inv (i : Int)).isEmpty then none else some (tokenAt inv (i : Int)))
      = some (tokenAt inv (i : Int))
  rw [if_neg fun h => hne ((String.isEmpty_iff _).mp h)]

theorem foldl_maxStep_of_all_nil :
    ∀ (inv : List (String × List Int)) (m : Int), (∀ e ∈ inv, e.2 = []) →
      inv.foldl maxStep m = m := by
  intro inv
  induction inv with
  | nil => intro m _; rfl
  | cons e es ih =>
    intro m h
    rw [List.foldl_cons]
    have hstep : maxStep m e = m := by
      rw [maxStep, h e (List.mem_cons_self e es)]
    rw [hstep]
    exact ih m fun x hx => h x (List.mem_cons_of_mem _ hx)

theorem fillSlots_of_all_nil :
    ∀ (inv : List (String × List Int)) (s : List (Option String)),
      (∀ e ∈ inv, e.2 = []) → fillSlots inv s = s := by
  intro inv
  induction inv with
  | nil => intro s _; rfl
  | cons e es ih =>
    intro s h
    rw [fillSlots_cons]
    have hw : writePositions e.1 e.2 s = s := by
      rw [h e (List.mem_cons_self e es)]
      rfl
    rw [hw]
    exact ih s fun x hx => h x (List.mem_cons_of_mem _ hx)

/-- C3 counterexample: the index mapping "a" to position 0 and the
whitespace-bearing token "b\nc" to position 1 covers 0..1 exactly once and
has nonempty tokens, yet the output is "a b c", not the plain join "a b\nc":
the normalization pass rewrites whitespace inside tokens. -/
theorem reconstruct_whitespace_token_counterexample :
    (((([("a", [0]), ("b\nc", [1])] : List (String × List Int)).map Prod.snd).flatten).Perm
        ((List.range 2).map (Nat.cast : Nat → Int))) ∧
    (∀ e ∈ ([("a", [0]), ("b\nc", [1])] : List (String × List Int)), e.1 ≠ "") ∧
    reconstruct_openalex_abstract [("a", [0]), ("b\nc", [1])] ≠ pyJoin " " ["a", "b\nc"] := by
  refine ⟨?_, by decide, by decide⟩
  rw [show ((([("a", [0]), ("b\nc", [1])] : List (String × List Int)).map Prod.snd).flatten)
      = ((List.range 2).map (Nat.cast : Nat → Int)) from by decide]

/-- C3 (amended): when the position lists cover 0..N-1 exactly once and
every token is nonempty and free of whitespace characters, the reconstructor
returns exactly the tokens joined by single spaces in ascending position
order. -/
theorem reconstruct_exact_cover (inv : List (String × List Int)) (N : Nat)
    (hcover : ((inv.map Prod.snd).flatten).Perm
      ((List.range N).map (Nat.cast : Nat → Int)))
    (htok : ∀ e ∈ inv, e.1 ≠ "" ∧ ∀ c ∈ e.1.data, isPySpace c = false) :
    reconstruct_openalex_abstract inv =
      pyJoin " " ((List.range N).map fun (i : Nat) => tokenAt inv (i : Int)) := by
  have hcover' : (allPos inv).Perm ((List.range N).map (Nat.cast : Nat → Int)) := hcover
  by_cases hN : 0 < N
  · have hinvne : inv ≠ [] := by
      intro h
      subst h
      have hlen := hcover'.length_eq
      simp [allPos] at hlen
      omega
    have hne : inv.isEmpty = false := by
      cases inv with
      | nil => exact absurd rfl hinvne
      | cons a l => rfl
    have hmax : invMaxPos inv = ((N - 1 : Nat) : Int) := invMaxPos_of_cover inv N hN hcover'
    have hlen : (invMaxPos inv).toNat + 1 = N := by rw [hmax]; omega
    rw [reconstruct_openalex_abstract, hne]
    simp only [Bool.false_eq_true, if_false]
    rw [hlen, fillSlots_eq_map inv N hcover',
      keptTokens_map_some inv N hcover' fun e he => (htok e he).1]
    apply normWs_pyJoin
    intro x hx
    rw [List.mem_map] at hx
    rcases hx with ⟨i, hi, rfl⟩
    have hmem : ((i : Int)) ∈ allPos inv :=
      hcover'.mem_iff.mpr (List.mem_map.mpr ⟨i, hi, rfl⟩)
    obtain ⟨e, he, heq⟩ := tokenAt_mem_of_mem_allPos hmem
    rw [heq]
    exact htok e he
  · have hN0 : N = 0 := by omega
    subst hN0
    have hnil : (allPos inv).Perm [] := by simpa using hcover'
    have hall : allPos inv = [] := List.Perm.eq_nil hnil
    have hempty : ∀ e ∈ inv, e.2 = [] := by
      intro e he
      exact List.flatten_eq_nil_iff.mp hall e.2 (List.mem_map_of_mem _ he)
    rw [show (List.range 0).map (fun (i : Nat) => tokenAt inv (i : Int)) = [] from rfl]
    rw [show pyJoin " " [] = "" from rfl]
    cases inv with
    | nil => rfl
    | cons e es =>
      rw [reconstruct_openalex_abstract]
      rw [show ((e :: es) : List (String × List Int)).isEmpty = false from rfl]
      simp only [Bool.false_eq_true, if_false]
      have hmax : invMaxPos (e :: es) = 0 := foldl_maxStep_of_all_nil (e :: es) 0 hempty
      rw [hmax]
      rw [fillSlots_of_all_nil (e :: es) _ hempty]
      decide

/-- The exact-cover witness index: two tokens at positions 0 and 1. -/
def invC3 : List (String × List Int) := [("hello", [0]), ("world", [1])]

/-- C3 witness: the amended theorem instantiated on a concrete two-token
exact cover, reconstructing to "hello world". -/
theorem reconstruct_exact_cover_witness :
    ((invC3.map Prod.snd).flatten).Perm ((List.range 2).map (Nat.cast : Nat → Int)) ∧
    (∀ e ∈ invC3, e.1 ≠ "" ∧ ∀ c ∈ e.1.data, isPySpace c = false) ∧
    reconstruct_openalex_abstract invC3 =
      pyJoin " " ((List.range 2).map fun (i : Nat) => tokenAt invC3 (i : Int)) := by
  have hperm : ((invC3.map Prod.snd).flatten).Perm
      ((List.range 2).map (Nat.cast : Nat → Int)) := by
    rw [show ((invC3.map Prod.snd).flatten)
        = ((List.range 2).map (Nat.cast : Nat → Int)) from by decide]
  exact ⟨hperm, by decide, reconstruct_exact_cover invC3 2 hperm (by decide)⟩
